import Mathlib

/-!
Verification of the singly-linked LIFO stack from rust-lists.

The repository has two implementations of the same stack:
* src/first.rs  — element type fixed to i32, with a bespoke `Link` enum
  (`Empty | More(Box<Node>)`) and `Node { elem, next }`;
* src/second.rs — generic over `T`, with `type Link<T> = Option<Box<Node<T>>>`,
  plus `peek`, `peek_mut` and three iterators (`IntoIterator`, `Iter`, `IterMut`),
  and an iterative `Drop`.

Embedding conventions:
* `Box` is the identity in a pure model, and `Node` is a single-constructor
  struct `{ elem, next }` whose only occurrence is directly under a link, so
  each link constructor that carries a node carries the node's two fields
  (`elem`, `next`) inline.  This keeps all recursion structural and computable.
* The Rust type is called `List`; here it is named `Stack` (the name the spec
  uses) because `List` would shadow Lean's builtin list type.
* Methods on `&mut self` (push, pop) are modelled by explicit state passing:
  they take the stack and return the result paired with the new stack.
  Methods on `&self` (peek, iter) read the stack and return no new state,
  which is exactly what a shared borrow permits.
* Machine integers i32 are modelled as `Int`; no operation of the repository
  performs arithmetic on elements, so overflow never arises.
-/

/-- Embedding of second.rs `type Link<T> = Option<Box<Node<T>>>` together with
the private struct `Node<T> { elem: T, next: Link<T> }`.  The `some`
constructor carries the boxed node's two fields inline. -/
inductive Second.Link (T : Type) : Type where
  | none : Second.Link T
  | some (elem : T) (next : Second.Link T) : Second.Link T
deriving DecidableEq

/-- Embedding of second.rs `pub struct List<T> { head: Link<T> }` (renamed
`Stack`, the spec's name, to avoid shadowing Lean's builtin list). -/
structure Second.Stack (T : Type) : Type where
  head : Second.Link T
deriving DecidableEq

/-- Abstraction function: the sequence of elements stored in a chain, head
first.  This is the observable contents of the stack, used to state the
invariants; it is not part of the Rust API. -/
def Second.chainElems {T : Type} : Second.Link T → List T
  | .none => []
  | .some e next => e :: Second.chainElems next

/-- Embedding of second.rs `List::new`: a stack whose head link is empty. -/
def Second.Stack.new (T : Type) : Second.Stack T := ⟨.none⟩

/-- Embedding of second.rs `List::push`: build a node owning `elem` and the
current head (stolen via `mem::replace`), then set head to it. -/
def Second.Stack.push {T : Type} (l : Second.Stack T) (elem : T) : Second.Stack T :=
  ⟨.some elem l.head⟩

/-- Embedding of second.rs `List::pop`: `self.head.take().map(|node| {
self.head = node.next; node.elem })`.  Taking an empty head leaves it empty
and yields `None`; otherwise the head node is detached, its tail becomes the
new head, and its element is returned. -/
def Second.Stack.pop {T : Type} (l : Second.Stack T) : Option T × Second.Stack T :=
  match l.head with
  | .none => (Option.none, ⟨.none⟩)
  | .some e next => (Option.some e, ⟨next⟩)

/-- Iterated `pop`: perform `n` pops, collecting each optional result in
order, and return the final stack. -/
def Second.Stack.pops {T : Type} : Nat → Second.Stack T → List (Option T) × Second.Stack T
  | 0, l => ([], l)
  | n + 1, l =>
    let r := l.pop
    let rs := Second.Stack.pops n r.2
    (r.1 :: rs.1, rs.2)

/-- Iterated `push`: push the elements of `vs` in order (v1 first). -/
def Second.Stack.pushAll {T : Type} (l : Second.Stack T) (vs : List T) : Second.Stack T :=
  vs.foldl Second.Stack.push l

/-- Embedding of second.rs `List::peek`: `self.head.as_ref().map(|node|
&node.elem)`.  The method takes `&self`; the model returns the value read
through the returned shared reference. -/
def Second.Stack.peek {T : Type} (l : Second.Stack T) : Option T :=
  match l.head with
  | .none => Option.none
  | .some e _ => Option.some e

/-- Call-shaped wrapper for `peek`: the body of `peek` never assigns to
`self.head` (it only applies `as_ref`), so a call returns the read value and
leaves the stack exactly as it was.  Making the (unchanged) post-state
explicit lets the frame property be stated rather than left implicit. -/
def Second.Stack.peekCall {T : Type} (l : Second.Stack T) : Option T × Second.Stack T :=
  (l.peek, l)

/-- Embedding of the read through second.rs `List::peek_mut`:
`self.head.as_mut().map(|node| &mut node.elem)` — the returned mutable
reference denotes the head node's `elem` field. -/
def Second.Stack.peekMut {T : Type} (l : Second.Stack T) : Option T :=
  match l.head with
  | .none => Option.none
  | .some e _ => Option.some e

/-- Effect of writing `v` through the mutable reference returned by
second.rs `List::peek_mut`: that reference is exactly the head node's `elem`
field, so the write replaces the head element and nothing else; when the
stack is empty `peek_mut` returns `None` and there is nothing to write
through. -/
def Second.Stack.peekMutWrite {T : Type} (l : Second.Stack T) (v : T) : Second.Stack T :=
  match l.head with
  | .none => l
  | .some _ next => ⟨.some v next⟩

/-- Embedding of second.rs `pub struct IntoIterator<T>(List<T>)`: a draining
iterator owning the stack it consumed. -/
structure Second.IntoIterator (T : Type) : Type where
  inner : Second.Stack T

/-- Embedding of second.rs `List::into_iter`: moves `self` into the wrapper. -/
def Second.Stack.intoIter {T : Type} (l : Second.Stack T) : Second.IntoIterator T :=
  ⟨l⟩

/-- Embedding of `Iterator::next` for `IntoIterator<T>`: `self.0.pop()`. -/
def Second.IntoIterator.next {T : Type} (it : Second.IntoIterator T) :
    Option T × Second.IntoIterator T :=
  ((it.inner.pop).1, ⟨(it.inner.pop).2⟩)

/-- Run the draining iterator `n` steps, collecting each optional yield. -/
def Second.IntoIterator.runVals {T : Type} : Nat → Second.IntoIterator T → List (Option T)
  | 0, _ => []
  | n + 1, it => (it.next).1 :: Second.IntoIterator.runVals n (it.next).2

/-- Embedding of second.rs `pub struct Iter<'a, T> { next: Option<&'a Node<T>> }`:
the shared cursor holds a borrowed pointer to the next node to yield.  A
shared reference to an immutable chain is modelled by the chain value itself. -/
structure Second.Iter (T : Type) : Type where
  next : Second.Link T

/-- Embedding of second.rs `List::iter`: `Iter { next: self.head.as_deref() }`. -/
def Second.Stack.iter {T : Type} (l : Second.Stack T) : Second.Iter T :=
  ⟨l.head⟩

/-- Call-shaped wrapper for `iter`: the method takes `&self` and only reads
`self.head`, so constructing the cursor leaves the stack unchanged. -/
def Second.Stack.iterCall {T : Type} (l : Second.Stack T) : Second.Iter T × Second.Stack T :=
  (l.iter, l)

/-- Embedding of `Iterator::next` for `Iter<'a, T>`: `self.next.map(|node| {
self.next = node.next.as_deref(); &node.elem })`. -/
def Second.Iter.step {T : Type} (it : Second.Iter T) : Option T × Second.Iter T :=
  match it.next with
  | .none => (Option.none, it)
  | .some e rest => (Option.some e, ⟨rest⟩)

/-- Run the shared cursor `n` steps, collecting each optional yield. -/
def Second.Iter.runVals {T : Type} : Nat → Second.Iter T → List (Option T)
  | 0, _ => []
  | n + 1, it => (it.step).1 :: Second.Iter.runVals n (it.step).2

/-- Embedding of second.rs `pub struct IterMut<'a, T> { next: Option<&'a mut Node<T>> }`. -/
structure Second.IterMut (T : Type) : Type where
  next : Second.Link T

/-- Embedding of second.rs `List::iter_mut`: `IterMut { next: self.head.as_deref_mut() }`. -/
def Second.Stack.iterMut {T : Type} (l : Second.Stack T) : Second.IterMut T :=
  ⟨l.head⟩

/-- Embedding of `Iterator::next` for `IterMut<'a, T>`: `self.next.take().map(
|node| { self.next = node.next.as_deref_mut(); &mut node.elem })` — yields the
current node's element and advances; the take-then-replace dance does not
change which value is yielded. -/
def Second.IterMut.step {T : Type} (it : Second.IterMut T) : Option T × Second.IterMut T :=
  match it.next with
  | .none => (Option.none, ⟨.none⟩)
  | .some e rest => (Option.some e, ⟨rest⟩)

/-- Run the exclusive cursor `n` steps, collecting each optional yield. -/
def Second.IterMut.runVals {T : Type} : Nat → Second.IterMut T → List (Option T)
  | 0, _ => []
  | n + 1, it => (it.step).1 :: Second.IterMut.runVals n (it.step).2

/-- Exclusive traversal with writes: run the `IterMut` cursor over the chain
and, through the i-th yielded mutable reference (which denotes the i-th
node's `elem` field), write `fs_i` applied to the value read there.  Returns
the sequence of values yielded (read before the write) and the chain as left
in memory afterwards.  When `fs` runs out the remaining elements are left
unchanged (write with the identity). -/
def Second.mutRun {T : Type} : Second.Link T → List (T → T) → List T × Second.Link T
  | .none, _ => ([], .none)
  | .some e rest, fs =>
    let r := Second.mutRun rest fs.tail
    (e :: r.1, .some (fs.headD id e) r.2)

/-- Specification-side combinator: apply the i-th function to the i-th
element, identity past the end of `fs`. -/
def applyWrites {T : Type} : List (T → T) → List T → List T
  | _, [] => []
  | fs, x :: xs => fs.headD id x :: applyWrites fs.tail xs

/-- One iteration of the loop in second.rs `impl Drop for List<T>`:
`cur_link = mem::replace(&mut boxed_node.next, None)` — detach the current
head node's tail and drop the one-node shell.  The loop body is not
recursive; teardown is this step iterated until the link is empty. -/
def Second.dropStep {T : Type} : Second.Link T → Second.Link T
  | .none => .none
  | .some _ next => next

/-- Embedding of first.rs `enum Link { Empty, More(Box<Node>) }` with the
boxed `Node { elem: i32, next: Link }` fields inlined into `More`. -/
inductive First.Link : Type where
  | Empty : First.Link
  | More (elem : Int) (next : First.Link) : First.Link
deriving DecidableEq

/-- Embedding of first.rs `pub struct List { head: Link }` (renamed `Stack`). -/
structure First.Stack : Type where
  head : First.Link
deriving DecidableEq

/-- Abstraction function for the first.rs chain, head first. -/
def First.chainElems : First.Link → List Int
  | .Empty => []
  | .More e next => e :: First.chainElems next

/-- Embedding of first.rs `List::new`. -/
def First.Stack.new : First.Stack := ⟨.Empty⟩

/-- Embedding of first.rs `List::push`: build a node owning `elem` and the
current head (stolen via `mem::replace(&mut self.head, Link::Empty)`), then
set head to `More` of it. -/
def First.Stack.push (l : First.Stack) (elem : Int) : First.Stack :=
  ⟨.More elem l.head⟩

/-- Embedding of first.rs `List::pop`: match on
`mem::replace(&mut self.head, Link::Empty)` — `Empty` yields `None` (head
stays empty), `More(node)` installs `node.next` as head and returns
`Some(node.elem)`. -/
def First.Stack.pop (l : First.Stack) : Option Int × First.Stack :=
  match l.head with
  | .Empty => (Option.none, ⟨.Empty⟩)
  | .More e next => (Option.some e, ⟨next⟩)

/-- Iterated `pop` for the first.rs stack. -/
def First.Stack.pops : Nat → First.Stack → List (Option Int) × First.Stack
  | 0, l => ([], l)
  | n + 1, l =>
    let r := l.pop
    let rs := First.Stack.pops n r.2
    (r.1 :: rs.1, rs.2)

/-- Iterated `push` for the first.rs stack. -/
def First.Stack.pushAll (l : First.Stack) (vs : List Int) : First.Stack :=
  vs.foldl First.Stack.push l

/-- One iteration of the loop in first.rs `impl Drop for List`:
`cur_link = mem::replace(&mut boxed_node.next, Link::Empty)`. -/
def First.dropStep : First.Link → First.Link
  | .Empty => .Empty
  | .More _ next => next

/-- An operation of the interface shared by first.rs and second.rs. -/
inductive Op : Type where
  | push (v : Int) : Op
  | pop : Op
deriving DecidableEq

/-- Run a sequence of interface operations on a first.rs stack, collecting
the result of every pop. -/
def First.Stack.runOps : List Op → First.Stack → List (Option Int) × First.Stack
  | [], l => ([], l)
  | Op.push v :: ops, l => First.Stack.runOps ops (l.push v)
  | Op.pop :: ops, l =>
    let r := l.pop
    let rs := First.Stack.runOps ops r.2
    (r.1 :: rs.1, rs.2)

/-- Run a sequence of interface operations on a second.rs stack instantiated
at i32, collecting the result of every pop. -/
def Second.Stack.runOps : List Op → Second.Stack Int → List (Option Int) × Second.Stack Int
  | [], l => ([], l)
  | Op.push v :: ops, l => Second.Stack.runOps ops (l.push v)
  | Op.pop :: ops, l =>
    let r := l.pop
    let rs := Second.Stack.runOps ops r.2
    (r.1 :: rs.1, rs.2)

/-!
Helper lemmas shared by the claim theorems.
-/

theorem Second.chainElems_pushAll {T : Type} (vs : List T) (l : Second.Stack T) :
    Second.chainElems (l.pushAll vs).head = vs.reverse ++ Second.chainElems l.head := by
  induction vs generalizing l with
  | nil => simp [Second.Stack.pushAll]
  | cons v vs ih =>
    have h : l.pushAll (v :: vs) = (l.push v).pushAll vs := rfl
    rw [h, ih]
    simp [Second.Stack.push, Second.chainElems]

theorem Second.pops_full {T : Type} (l : Second.Stack T) :
    l.pops (Second.chainElems l.head).length =
      ((Second.chainElems l.head).map Option.some, Second.Stack.new T) := by
  cases l with
  | mk hd =>
    induction hd with
    | none => rfl
    | some e next ih =>
      simp only [Second.chainElems, List.length_cons, Second.Stack.pops,
        Second.Stack.pop, List.map_cons]
      exact congrArg (fun p => (Option.some e :: p.1, p.2)) ih

theorem First.pushAll_chainElems (vs : List Int) (l : First.Stack) :
    First.chainElems (l.pushAll vs).head = vs.reverse ++ First.chainElems l.head := by
  induction vs generalizing l with
  | nil => simp [First.Stack.pushAll]
  | cons v vs ih =>
    have h : l.pushAll (v :: vs) = (l.push v).pushAll vs := rfl
    rw [h, ih]
    simp [First.Stack.push, First.chainElems]

theorem First.pops_complete (l : First.Stack) :
    l.pops (First.chainElems l.head).length =
      ((First.chainElems l.head).map Option.some, First.Stack.new) := by
  cases l with
  | mk hd =>
    induction hd with
    | Empty => rfl
    | More e next ih =>
      simp only [First.chainElems, List.length_cons, First.Stack.pops,
        First.Stack.pop, List.map_cons]
      exact congrArg (fun p => (Option.some e :: p.1, p.2)) ih

theorem Second.Iter.runVals_pops {T : Type} (n : Nat) (it : Second.Iter T) :
    Second.Iter.runVals n it = (Second.Stack.pops n ⟨it.next⟩).1 := by
  induction n generalizing it with
  | zero => rfl
  | succ n ih =>
    cases it with
    | mk lk =>
      cases lk with
      | none =>
        simp [Second.Iter.runVals, Second.Iter.step, Second.Stack.pops,
          Second.Stack.pop, ih]
      | some e rest =>
        simp [Second.Iter.runVals, Second.Iter.step, Second.Stack.pops,
          Second.Stack.pop, ih]

theorem Second.IntoIterator.runVals_eq_pops {T : Type} (n : Nat) (it : Second.IntoIterator T) :
    Second.IntoIterator.runVals n it = (it.inner.pops n).1 := by
  induction n generalizing it with
  | zero => rfl
  | succ n ih =>
    cases it with
    | mk l =>
      simp [Second.IntoIterator.runVals, Second.IntoIterator.next,
        Second.Stack.pops, ih]

theorem Second.mutRun_spec {T : Type} (lk : Second.Link T) (fs : List (T → T)) :
    (Second.mutRun lk fs).1 = Second.chainElems lk ∧
      Second.chainElems (Second.mutRun lk fs).2 =
        applyWrites fs (Second.chainElems lk) := by
  induction lk generalizing fs with
  | none => simp [Second.mutRun, Second.chainElems, applyWrites]
  | some e rest ih =>
    simp [Second.mutRun, Second.chainElems, applyWrites, ih]

theorem Second.dropStep_iterate {T : Type} (lk : Second.Link T) :
    Second.dropStep^[(Second.chainElems lk).length] lk = Second.Link.none := by
  induction lk with
  | none => rfl
  | some e next ih =>
    simpa [Second.chainElems, Function.iterate_succ_apply, Second.dropStep] using ih

theorem Second.dropStep_min {T : Type} (lk : Second.Link T) :
    ∀ m : Nat, Second.dropStep^[m] lk = Second.Link.none →
      (Second.chainElems lk).length ≤ m := by
  induction lk with
  | none => intro m _; simp [Second.chainElems]
  | some e next ih =>
    intro m hm
    cases m with
    | zero => exact Second.Link.noConfusion hm
    | succ m =>
      rw [Function.iterate_succ_apply] at hm
      simpa [Second.chainElems] using Nat.succ_le_succ (ih m hm)

theorem First.dropLoop_iterate (lk : First.Link) :
    First.dropStep^[(First.chainElems lk).length] lk = First.Link.Empty := by
  induction lk with
  | Empty => rfl
  | More e next ih =>
    simpa [First.chainElems, Function.iterate_succ_apply, First.dropStep] using ih

/-- Abstract (specification-level) run of an operation sequence over the list
of stack contents, head first: the common behaviour both implementations are
proved to refine. -/
def absRun : List Op → List Int → List (Option Int) × List Int
  | [], s => ([], s)
  | Op.push v :: ops, s => absRun ops (v :: s)
  | Op.pop :: ops, [] =>
    let rs := absRun ops []
    (Option.none :: rs.1, rs.2)
  | Op.pop :: ops, x :: xs =>
    let rs := absRun ops xs
    (Option.some x :: rs.1, rs.2)

theorem First.runOps_absRun (ops : List Op) : ∀ l : First.Stack,
    (First.Stack.runOps ops l).1 = (absRun ops (First.chainElems l.head)).1 ∧
      First.chainElems (First.Stack.runOps ops l).2.head =
        (absRun ops (First.chainElems l.head)).2 := by
  induction ops with
  | nil => intro l; exact ⟨rfl, rfl⟩
  | cons op ops ih =>
    intro l
    cases l with
    | mk hd =>
      cases op with
      | push v =>
        simpa [First.Stack.runOps, absRun, First.Stack.push, First.chainElems]
          using ih ⟨.More v hd⟩
      | pop =>
        cases hd with
        | Empty =>
          simpa [First.Stack.runOps, absRun, First.Stack.pop, First.chainElems]
            using ih ⟨.Empty⟩
        | More e next =>
          simpa [First.Stack.runOps, absRun, First.Stack.pop, First.chainElems]
            using ih ⟨next⟩

theorem Second.runOps_abs (ops : List Op) : ∀ l : Second.Stack Int,
    (Second.Stack.runOps ops l).1 = (absRun ops (Second.chainElems l.head)).1 ∧
      Second.chainElems (Second.Stack.runOps ops l).2.head =
        (absRun ops (Second.chainElems l.head)).2 := by
  induction ops with
  | nil => intro l; exact ⟨rfl, rfl⟩
  | cons op ops ih =>
    intro l
    cases l with
    | mk hd =>
      cases op with
      | push v =>
        simpa [Second.Stack.runOps, absRun, Second.Stack.push, Second.chainElems]
          using ih ⟨.some v hd⟩
      | pop =>
        cases hd with
        | none =>
          simpa [Second.Stack.runOps, absRun, Second.Stack.pop, Second.chainElems]
            using ih ⟨.none⟩
        | some e next =>
          simpa [Second.Stack.runOps, absRun, Second.Stack.pop, Second.chainElems]
            using ih ⟨next⟩

/-!
Claim theorems.
-/

/-- C1 (LIFO law): pushing v1, ..., vn in that order onto a freshly
constructed stack and then performing n pops returns exactly vn, ..., v1,
each wrapped as present, and leaves the stack empty — for the generic
second.rs stack at any element type, and for the first.rs i32 stack. -/
theorem lifo_law :
    (∀ (T : Type) (vs : List T),
      ((Second.Stack.new T).pushAll vs).pops vs.length =
        (vs.reverse.map Option.some, Second.Stack.new T)) ∧
    (∀ vs : List Int,
      (First.Stack.new.pushAll vs).pops vs.length =
        (vs.reverse.map Option.some, First.Stack.new)) := by
  constructor
  · intro T vs
    have h1 : Second.chainElems ((Second.Stack.new T).pushAll vs).head = vs.reverse := by
      simp [Second.chainElems_pushAll, Second.Stack.new, Second.chainElems]
    have h2 := Second.pops_full ((Second.Stack.new T).pushAll vs)
    rw [h1] at h2
    simpa using h2
  · intro vs
    have h1 : First.chainElems (First.Stack.new.pushAll vs).head = vs.reverse := by
      simp [First.pushAll_chainElems, First.Stack.new, First.chainElems]
    have h2 := First.pops_complete (First.Stack.new.pushAll vs)
    rw [h1] at h2
    simpa using h2

/-- C2 (iterative destruction): the teardown loop of Drop — whose body
detaches the head node's tail link and drops the one-node shell, without any
recursive call — reaches the empty link after exactly n iterations on a
chain of n nodes (at most n, and no fewer), for both implementations; in
particular a stack built by 100000 pushes has chain length 100000, so its
teardown is 100000 iterations of the constant-work step, independent of any
call-stack depth. -/
theorem drop_iterative :
    (∀ (T : Type) (l : Second.Stack T),
      Second.dropStep^[(Second.chainElems l.head).length] l.head = Second.Link.none ∧
      ∀ m : Nat, Second.dropStep^[m] l.head = Second.Link.none →
        (Second.chainElems l.head).length ≤ m) ∧
    (∀ l : First.Stack,
      First.dropStep^[(First.chainElems l.head).length] l.head = First.Link.Empty) ∧
    (Second.chainElems
        ((Second.Stack.new Int).pushAll (List.replicate 100000 (0 : Int))).head).length
      = 100000 := by
  refine ⟨fun T l => ⟨Second.dropStep_iterate l.head, Second.dropStep_min l.head⟩,
    fun l => First.dropLoop_iterate l.head, ?_⟩
  rw [Second.chainElems_pushAll]
  simp only [Second.Stack.new, Second.chainElems, List.append_nil, List.length_reverse,
    List.length_replicate]

/-- C2 witness: the general clauses applied to the concrete two-element
stack obtained by pushing 1 then 2, discharging the hypothesis of the
minimality clause at m = 2 by evaluation. -/
theorem drop_iterative_witness :
    Second.dropStep^[2] (((Second.Stack.new Int).push 1).push 2).head = Second.Link.none ∧
    (Second.chainElems (((Second.Stack.new Int).push 1).push 2).head).length ≤ 2 :=
  ⟨by decide,
    (drop_iterative.1 Int (((Second.Stack.new Int).push 1).push 2)).2 2 (by decide)⟩

/-- C3 (idempotent-empty law): pop on a freshly constructed stack returns
absent and leaves the stack freshly constructed; whenever pop reports
absent, the stack was left unchanged and every further pop again reports
absent with the state still unchanged.  Absence is the value
Option.none of pop's total return type, not an error. -/
theorem pop_empty_absent :
    (∀ T : Type, (Second.Stack.new T).pop = (Option.none, Second.Stack.new T)) ∧
    (∀ (T : Type) (l : Second.Stack T), (l.pop).1 = Option.none →
      l.pop = (Option.none, l) ∧ (l.pop).2.pop = (Option.none, (l.pop).2)) ∧
    (First.Stack.new.pop = (Option.none, First.Stack.new)) := by
  refine ⟨fun T => rfl, ?_, rfl⟩
  intro T l h
  cases l with
  | mk hd =>
    cases hd with
    | none => exact ⟨rfl, rfl⟩
    | some e next => exact Option.noConfusion h

/-- C3 witness: the conditional clause applied to the freshly constructed
stack over Int, whose pop evaluates to absent. -/
theorem pop_empty_absent_witness :
    (Second.Stack.new Int).pop = (Option.none, Second.Stack.new Int) ∧
    ((Second.Stack.new Int).pop).2.pop = (Option.none, ((Second.Stack.new Int).pop).2) :=
  pop_empty_absent.2.1 Int (Second.Stack.new Int) rfl

/-- C4 (peek is pure): a peek call returns the stack unchanged, two
consecutive peeks yield the same value, the value peeked is exactly the
value the next pop would return (the head element), any sequence of pops
after the peek equals the same pops without it, and peek on the fresh stack
is absent. -/
theorem peek_pure :
    ∀ (T : Type) (l : Second.Stack T) (n : Nat),
      (l.peekCall).2 = l ∧
      ((l.peekCall).2.peekCall).1 = (l.peekCall).1 ∧
      (l.peekCall).1 = (l.pop).1 ∧
      (l.peekCall).2.pops n = l.pops n ∧
      (Second.Stack.new T).peek = Option.none := by
  intro T l n
  refine ⟨rfl, rfl, ?_, rfl, rfl⟩
  cases l with
  | mk hd => cases hd <;> rfl

/-- C5 (peek_mut write observed by pop): for any stack over Int, pushing 5,
writing 10 through the mutable reference obtained from peek_mut (which
denotes the head element), then popping yields present 10 and restores
exactly the original stack — the rest of the chain is unchanged.  The read
through peek_mut before the write sees the pushed 5. -/
theorem peek_mut_write_observed :
    ∀ l : Second.Stack Int,
      ((l.push 5).peekMutWrite 10).pop = (Option.some 10, l) ∧
      (l.push 5).peekMut = Option.some 5 :=
  fun _ => ⟨rfl, rfl⟩

/-- C6 (draining iterator refines pop): running the owned iterator any
number of steps collects exactly the results of that many pops on the
consumed stack; once next returns absent the underlying stack is exhausted
and every further next returns absent with the iterator unchanged; over the
stack built by pushing 1, 2, 3 the iterator yields present 3, 2, 1, then
absent. -/
theorem into_iter_refines_pop :
    (∀ (T : Type) (l : Second.Stack T) (n : Nat),
      Second.IntoIterator.runVals n l.intoIter = (l.pops n).1) ∧
    (∀ (T : Type) (it : Second.IntoIterator T),
      (it.next).1 = Option.none → (it.next).2.next = (Option.none, (it.next).2)) ∧
    Second.IntoIterator.runVals 4 ((Second.Stack.new Int).pushAll [1, 2, 3]).intoIter =
      [Option.some 3, Option.some 2, Option.some 1, Option.none] := by
  refine ⟨fun T l n => Second.IntoIterator.runVals_eq_pops n l.intoIter, ?_, by decide⟩
  intro T it h
  cases it with
  | mk l =>
    cases l with
    | mk hd =>
      cases hd with
      | none => exact Prod.ext rfl rfl
      | some e next =>
        exact Option.noConfusion h

/-- C6 witness: the permanence clause applied to the iterator obtained from
the fresh stack over Int, whose first next evaluates to absent. -/
theorem into_iter_refines_pop_witness :
    ((Second.Stack.new Int).intoIter.next).2.next =
      (Option.none, ((Second.Stack.new Int).intoIter.next).2) :=
  into_iter_refines_pop.2.1 Int (Second.Stack.new Int).intoIter rfl

/-- C7 (shared traversal is read-only and in LIFO order): running the shared
cursor any number of steps yields exactly the values the same number of pops
would return, while the stack itself is untouched — constructing the cursor
returns the stack unchanged and pops performed after the cursor is gone
equal pops performed without it; over the stack built by pushing 1, 2, 3 the
cursor yields references to 3, 2, 1, then nothing, and the stack afterwards
still pops 3, 2, 1, then absent. -/
theorem iter_shared_traversal :
    (∀ (T : Type) (l : Second.Stack T) (n : Nat),
      Second.Iter.runVals n l.iter = (l.pops n).1) ∧
    (∀ (T : Type) (l : Second.Stack T) (n : Nat),
      (l.iterCall).2 = l ∧ (l.iterCall).2.pops n = l.pops n) ∧
    (Second.Iter.runVals 4 ((Second.Stack.new Int).pushAll [1, 2, 3]).iter =
        [Option.some 3, Option.some 2, Option.some 1, Option.none] ∧
      (((Second.Stack.new Int).pushAll [1, 2, 3]).iterCall).2.pops 4 =
        ([Option.some 3, Option.some 2, Option.some 1, Option.none],
          Second.Stack.new Int)) := by
  refine ⟨fun T l n => ?_, fun T l n => ⟨rfl, rfl⟩, by decide, by decide⟩
  exact Second.Iter.runVals_pops n l.iter

/-- C8 (exclusive traversal with writes): the mutable cursor yields the
chain's elements in LIFO order and then nothing; writing through the i-th
yielded mutable reference replaces exactly the i-th element of the chain and
no other (the resulting contents are the elementwise image of the writes);
concretely, over the stack built by pushing 1, 2, 3 the cursor yields 3, 2, 1
then absent, and after writing 30, 20, 10 through the three references a
subsequent shared traversal of the same stack sees 30, 20, 10. -/
theorem iter_mut_writes :
    (∀ (T : Type) (lk : Second.Link T) (fs : List (T → T)),
      (Second.mutRun lk fs).1 = Second.chainElems lk ∧
      Second.chainElems (Second.mutRun lk fs).2 =
        applyWrites fs (Second.chainElems lk)) ∧
    (Second.IterMut.runVals 4 ((Second.Stack.new Int).pushAll [1, 2, 3]).iterMut =
      [Option.some 3, Option.some 2, Option.some 1, Option.none]) ∧
    ((Second.mutRun (((Second.Stack.new Int).pushAll [1, 2, 3]).iterMut).next
        [fun _ => 30, fun _ => 20, fun _ => 10]).1 = [3, 2, 1] ∧
      Second.Iter.runVals 3
        (Second.Stack.iter
          ⟨(Second.mutRun (((Second.Stack.new Int).pushAll [1, 2, 3]).iterMut).next
              [fun _ => 30, fun _ => 20, fun _ => 10]).2⟩) =
        [Option.some 30, Option.some 20, Option.some 10]) :=
  ⟨fun T lk fs => Second.mutRun_spec lk fs, by decide, rfl, rfl⟩

/-- C9 (first.rs and second.rs are observationally equivalent at i32): for
every sequence of interface operations run from the freshly constructed
stacks, the two implementations produce identical sequences of pop results
and identical final abstract stack contents. -/
theorem first_second_equiv :
    ∀ ops : List Op,
      (First.Stack.runOps ops First.Stack.new).1 =
        (Second.Stack.runOps ops (Second.Stack.new Int)).1 ∧
      First.chainElems (First.Stack.runOps ops First.Stack.new).2.head =
        Second.chainElems (Second.Stack.runOps ops (Second.Stack.new Int)).2.head := by
  intro ops
  have hf := First.runOps_absRun ops First.Stack.new
  have hs := Second.runOps_abs ops (Second.Stack.new Int)
  have habs : First.chainElems First.Stack.new.head =
      Second.chainElems (Second.Stack.new Int).head := rfl
  constructor
  · rw [hf.1, hs.1, habs]
  · rw [hf.2, hs.2, habs]

/-- C10 (push/pop round trip): for every stack state and every element,
pushing the element and then popping returns it wrapped as present and
restores the stack exactly — for the generic second.rs stack and for the
first.rs stack. -/
theorem push_pop_roundtrip :
    (∀ (T : Type) (l : Second.Stack T) (v : T), (l.push v).pop = (Option.some v, l)) ∧
    (∀ (l : First.Stack) (v : Int), (l.push v).pop = (Option.some v, l)) :=
  ⟨fun _ _ _ => rfl, fun _ _ => rfl⟩
